import Mathlib

/-!
Verification of the ingestion pipeline in `script_gphoto.py`
(watched-folder → stability check → upload → cleanup / quarantine,
with a deduplicating in-flight set and a FIFO work queue).

The shallow embedding below mirrors the script function by function.
External effects (filesystem samples, the upload sink, `os.remove`,
`shutil.move`, `os.path.exists`) are supplied by oracles, and the
orchestration code is translated into pure functions that return the
sequence of observable events (log lines, deletions, moves, sleeps,
re-queue calls) alongside any state they update.
-/

set_option autoImplicit false

namespace GPhoto

/-! ### Configuration constants (lines 13–23 of the script) -/

def WATCHED_FOLDER : String := "/data"

/-- `FAILED_FOLDER = os.path.join(WATCHED_FOLDER, "_failed")` (line 20). -/
def FAILED_FOLDER : String := WATCHED_FOLDER ++ "/_failed"

def VALID_EXT : List String := [".jpg", ".jpeg", ".png", ".heic", ".mp4"]

/-! ### `is_media_file` (lines 68–69)

`os.path.isfile(path)` is an external observation, passed in as a
Boolean; the extension test is `path.lower().endswith(VALID_EXT)`.
`str.lower` and `str.endswith` are given as character-list functions
so that every use is computable by kernel reduction. -/

/-- `str.lower` (ASCII case folding, which is all the allow-list
needs). -/
def lowerStr (s : String) : String :=
  ⟨s.toList.map Char.toLower⟩

/-- `str.endswith(t)`. -/
def endsWithStr (s t : String) : Bool :=
  t.toList.isSuffixOf s.toList

def is_media_file (isfile : Bool) (path : String) : Bool :=
  isfile && VALID_EXT.any (fun ext => endsWithStr (lowerStr path) ext)

/-! ### `wait_until_stable` (lines 72–105)

Each iteration of the sampling loop observes the filesystem once:
either the path does not exist (`os.path.exists` is false), or
`os.path.getsize` returns a size, or the sampling raises an OS error
(caught by the `except Exception` at line 104).  A run of the check is
therefore determined by a sample oracle `obs : Nat → Sample`.

`process_file` calls the function with `min_age=0.0` (line 129), and
with `min_age ≤ 0` the pre-sleep block at lines 80–83 does nothing, so
the embedding starts directly at the sampling loop. -/

inductive Sample where
  | missing : Sample
  | size : Nat → Sample
  | ioError : String → Sample
deriving DecidableEq

/-- Why the sampling loop of `wait_until_stable` stopped. -/
inductive StopReason where
  | stable : StopReason
  | vanished : StopReason
  | exhausted : StopReason
  | errored : String → StopReason
deriving DecidableEq

/-- The `for _ in range(checks * 2)` loop (lines 88–101), with
`i` the index of the next sample, `fuel` the remaining iterations,
`last_size` and `stable_count` the loop-carried variables
(initialised to `-1` and `0` at lines 85–86).  Returns why the loop
stopped together with the index of the decisive sample, which equals
the number of `time.sleep(interval)` calls completed before returning
(each finished iteration sleeps once, at line 101). -/
def stabilityLoop (obs : Nat → Sample) (checks : Nat) :
    Nat → Nat → Int → Nat → StopReason × Nat
  | i, 0, _, _ => (.exhausted, i)
  | i, fuel + 1, last_size, stable_count =>
    match obs i with
    | .missing => (.vanished, i)
    | .ioError e => (.errored e, i)
    | .size n =>
      if (n : Int) = last_size ∧ 0 < n then
        if checks ≤ stable_count + 1 then (.stable, i)
        else stabilityLoop obs checks (i + 1) fuel last_size (stable_count + 1)
      else stabilityLoop obs checks (i + 1) fuel (n : Int) 0

/-- `wait_until_stable` returns `True` only when the loop reached
`checks` consecutive equal positive sizes; a vanished path (line 90),
an exhausted budget (line 103) and a caught exception (lines 104–105)
all return `False`. -/
def wait_until_stable (obs : Nat → Sample) (checks : Nat) : Bool :=
  match (stabilityLoop obs checks 0 (checks * 2) (-1) 0).1 with
  | .stable => true
  | _ => false

/-! ### Observable events of one processing attempt

Each event records one externally visible action of `process_file`,
`safe_move_to_failed` or the logging helpers.  `sleepHalf n` stands for
`time.sleep(0.5 * n)` (line 152, with `n = attempt + 1`); `sleepOne`
for `time.sleep(1)` (line 132). -/

inductive Event where
  | requeue : String → Event
  | logSuccess : String → String → Event
  | logError : String → String → String → Event
  | removed : String → Event
  | sleepHalf : Nat → Event
  | sleepOne : Event
  | moved : String → String → Event
deriving DecidableEq

/-- Outcome of one `client.upload(target=path, ...)` call (line 138):
it either returns an output token or raises. -/
inductive UploadResult where
  | ok : String → UploadResult
  | raised : String → UploadResult
deriving DecidableEq

/-- Outcome of one `os.remove(path)` attempt (line 148): success,
a `PermissionError` (the only exception the retry loop catches,
line 151), or any other exception. -/
inductive RemoveResult where
  | ok : RemoveResult
  | permissionError : RemoveResult
  | raised : String → RemoveResult
deriving DecidableEq

/-- Oracle for the external effects touched while handling one
dequeued path: the stability samples, the sink call, the per-attempt
`os.remove` results, the `os.path.exists` test in the failure handler
(line 163), and the data used by `safe_move_to_failed` (the
`os.path.exists(target)` collision test at line 113, `int(time.time())`
at line 115, and the `shutil.move` outcome at line 117). -/
structure Env where
  obs : Nat → Sample
  upload : UploadResult
  remove : Nat → RemoveResult
  existsAfterFail : Bool
  targetExists : Bool
  now : Nat
  moveResult : Except String Unit

/-! ### `safe_move_to_failed` (lines 108–124) -/

/-- `os.path.basename`: the component after the last `/`. -/
def basename (p : String) : String :=
  ⟨p.toList.foldl (fun acc c => if c = '/' then [] else acc ++ [c]) []⟩

/-- `os.path.splitext` on a string without path separators: split at
the last dot, provided some character strictly before that dot is not
itself a dot (so purely leading dots yield no extension). -/
def splitext (b : String) : String × String :=
  let cs := b.toList
  let dots := (List.range cs.length).filter (fun i => cs.getD i ' ' = '.')
  match dots.getLast? with
  | none => (b, "")
  | some d =>
    if (List.range d).any (fun i => cs.getD i ' ' ≠ '.') then
      (⟨cs.take d⟩, ⟨cs.drop d⟩)
    else (b, "")

/-- The move target computed at lines 110–115: `FAILED_FOLDER/base`,
or `FAILED_FOLDER/name_<timestamp><ext>` when that name exists. -/
def failedTarget (env : Env) (path : String) : String :=
  let base := basename path
  if env.targetExists then
    let ne := splitext base
    FAILED_FOLDER ++ "/" ++ ne.1 ++ "_" ++ toString env.now ++ ne.2
  else FAILED_FOLDER ++ "/" ++ base

/-- `safe_move_to_failed(path, reason)`: move the file to the computed
target and log `moved_to=...`, or, when the move raises, log
`move_failed=...` and leave the file where it is. -/
def safe_move_to_failed (env : Env) (path reason : String) : List Event :=
  let target := failedTarget env path
  match env.moveResult with
  | .ok _ => [.moved path target, .logError path reason ("moved_to=" ++ target)]
  | .error e => [.logError path reason ("move_failed=" ++ e)]

/-! ### The post-success deletion retry loop (lines 145–156) -/

/-- How the `for attempt in range(max_retries)` loop ended: `break`
after a successful `os.remove`, normal exhaustion (which triggers the
`for`–`else` warning), or an uncaught exception propagating out. -/
inductive DeleteOutcome where
  | removedOk : DeleteOutcome
  | exhausted : DeleteOutcome
  | raised : String → DeleteOutcome
deriving DecidableEq

/-- The deletion retry loop: `attempt` is the 0-based index of the next
`os.remove` call, `fuel` the remaining iterations (started at
`max_retries = 5`).  Only `PermissionError` is caught, followed by
`time.sleep(0.5 * (attempt + 1))`; any other exception aborts the loop
and propagates. -/
def deleteRetry (remove : Nat → RemoveResult) (path : String) :
    Nat → Nat → List Event × DeleteOutcome
  | _, 0 => ([], .exhausted)
  | attempt, fuel + 1 =>
    match remove attempt with
    | .ok => ([.removed path], .removedOk)
    | .raised e => ([], .raised e)
    | .permissionError =>
      let r := deleteRetry remove path (attempt + 1) fuel
      (.sleepHalf (attempt + 1) :: r.1, r.2)

/-! ### `process_file` (lines 127–164) -/

/-- One call to `process_file(path)`, as the list of observable events.
Unstable: `time.sleep(1)`, `enqueue(path)`, return (lines 129–134).
Stable: `client.upload`; on success `log_success` then the deletion
retry loop, whose normal exhaustion logs the
`upload_ok_but_delete_failed` warning (lines 153–156); any exception
raised by the upload or by a non-`PermissionError` removal reaches the
handler at lines 158–164, which logs the error and, when the path
still exists, calls `safe_move_to_failed`. -/
def process_file (env : Env) (path : String) : List Event :=
  if wait_until_stable env.obs 3 = false then
    [.sleepOne, .requeue path]
  else
    match env.upload with
    | .raised e =>
      .logError path e "" ::
        (if env.existsAfterFail then safe_move_to_failed env path e else [])
    | .ok output =>
      let r := deleteRetry env.remove path 0 5
      match r.2 with
      | .removedOk => .logSuccess path output :: r.1
      | .exhausted =>
        .logSuccess path output ::
          (r.1 ++ [.logError path "upload_ok_but_delete_failed" "warn=delete_failed"])
      | .raised e =>
        .logSuccess path output ::
          (r.1 ++ .logError path e "" ::
            (if env.existsAfterFail then safe_move_to_failed env path e else []))

/-! ### The dedup gate, the queue and the worker (lines 167–189) -/

/-- The shared mutable state: the `in_flight` set (kept as a list of
distinct paths) and the FIFO `work_q`. -/
structure SysState where
  in_flight : List String
  work_q : List String
deriving DecidableEq

/-- `enqueue(path)` (lines 182–189): reject non-media paths, then,
under the lock, a silent no-op when the path is in flight, otherwise
add to `in_flight` and put on the queue.  `isfile` is the current
`os.path.isfile` observation. -/
def enqueue (isfile : String → Bool) (s : SysState) (path : String) : SysState :=
  if is_media_file (isfile path) path = false then s
  else if path ∈ s.in_flight then s
  else { in_flight := path :: s.in_flight, work_q := s.work_q ++ [path] }

/-- Replay, onto the gate state, the `enqueue` calls that
`process_file` performed (the `requeue` events). -/
def applyRequeues (isfile : String → Bool) (s : SysState) (evs : List Event) : SysState :=
  evs.foldl (fun st ev => match ev with
    | .requeue q => enqueue isfile st q
    | _ => st) s

/-- One iteration of `worker()` (lines 167–179): dequeue the front
item (or do nothing when the queue is empty), run `process_file`, then
— in the `finally` block — discard the path from `in_flight`. -/
def workerStep (isfile : String → Bool) (env : Env) (s : SysState) :
    SysState × List Event :=
  match s.work_q with
  | [] => (s, [])
  | p :: rest =>
    let evs := process_file env p
    let s1 := applyRequeues isfile { s with work_q := rest } evs
    ({ s1 with in_flight := s1.in_flight.erase p }, evs)

/-! ### `initial_scan` (lines 211–217)

`os.walk(WATCHED_FOLDER)` enumerates every file whose path lies under
the watched root; the filesystem is a list of existing file paths.
The scan calls `enqueue` on each media file; since `enqueue` itself
re-checks `is_media_file` (line 183), folding `enqueue` over the walk
is the same as the script's `if is_media_file(p): enqueue(p)`. -/

/-- `p` lies strictly under directory `root`. -/
def isUnder (root p : String) : Bool :=
  (root.toList ++ ['/']).isPrefixOf p.toList

def os_walk_files (fs : List String) (root : String) : List String :=
  fs.filter (fun p => isUnder root p)

def initial_scan (isfile : String → Bool) (fs : List String) (s : SysState) : SysState :=
  (os_walk_files fs WATCHED_FOLDER).foldl (fun st p => enqueue isfile st p) s

/-- States reachable from the empty initial state by any interleaving
of gate calls (filesystem events or scans, each observing its own
`isfile` snapshot) and worker iterations (each with its own effect
oracle). -/
inductive Reach : SysState → Prop where
  | init : Reach ⟨[], []⟩
  | enq (isfile : String → Bool) (p : String) {s : SysState} :
      Reach s → Reach (enqueue isfile s p)
  | work (isfile : String → Bool) (env : Env) {s : SysState} :
      Reach s → Reach (workerStep isfile env s).1

/-- The backoff sleeps `time.sleep(0.5 * (a+1)), …` emitted by `fuel`
consecutive `PermissionError` attempts starting at attempt `a`
(auxiliary, used to describe `deleteRetry` traces). -/
def sleepsFrom (a : Nat) : Nat → List Event
  | 0 => []
  | fuel + 1 => Event.sleepHalf (a + 1) :: sleepsFrom (a + 1) fuel

/-- The gate invariant: the queue holds no duplicates and every queued
path is in flight. -/
def Inv (s : SysState) : Prop :=
  s.work_q.Nodup ∧ ∀ q ∈ s.work_q, q ∈ s.in_flight

/-! ### Helper lemmas about the stability loop -/

/-- Once the loop has seen `last_size = s` for a constant positive
size, it reports stability as soon as the consecutive count reaches
`checks`. -/
lemma stabilityLoop_const (obs : Nat → Sample) (checks s : Nat)
    (hs : 0 < s) (hobs : ∀ j, obs j = .size s) :
    ∀ fuel i cnt, cnt + 1 ≤ checks → checks - cnt ≤ fuel →
      stabilityLoop obs checks i fuel (s : Int) cnt =
        (.stable, i + (checks - cnt - 1)) := by
  intro fuel
  induction fuel with
  | zero => intro i cnt h1 h2; omega
  | succ fuel ih =>
    intro i cnt h1 h2
    simp only [stabilityLoop, hobs i]
    rw [if_pos ⟨trivial, hs⟩]
    by_cases hc : checks ≤ cnt + 1
    · rw [if_pos hc]
      have hz : checks - cnt - 1 = 0 := by omega
      rw [hz, Nat.add_zero]
    · rw [if_neg hc, ih (i + 1) (cnt + 1) (by omega) (by omega)]
      have ha : i + 1 + (checks - (cnt + 1) - 1) = i + (checks - cnt - 1) := by
        omega
      rw [ha]

/-- A size that differs from its predecessor on every sample resets
the consecutive count forever, so the loop runs out of budget. -/
lemma stabilityLoop_changing (obs : Nat → Sample) (f : Nat → Nat) (checks : Nat)
    (hobs : ∀ j, obs j = .size (f j)) (hne : ∀ j, f (j + 1) ≠ f j) :
    ∀ fuel i, stabilityLoop obs checks (i + 1) fuel ((f i : Int)) 0 =
      (.exhausted, i + 1 + fuel) := by
  intro fuel
  induction fuel with
  | zero => intro i; rfl
  | succ fuel ih =>
    intro i
    simp only [stabilityLoop, hobs (i + 1)]
    rw [if_neg (by
      rintro ⟨h1, -⟩
      exact hne i (by exact_mod_cast h1))]
    rw [ih (i + 1)]
    have ha : i + 1 + 1 + fuel = i + 1 + (fuel + 1) := by omega
    rw [ha]

/-- A constant zero size never increments the consecutive count. -/
lemma stabilityLoop_zero (obs : Nat → Sample) (checks : Nat) :
    ∀ fuel i last cnt, (∀ j, i ≤ j → j < i + fuel → obs j = .size 0) →
      stabilityLoop obs checks i fuel last cnt = (.exhausted, i + fuel) := by
  intro fuel
  induction fuel with
  | zero => intro i last cnt _; rfl
  | succ fuel ih =>
    intro i last cnt hobs
    simp only [stabilityLoop, hobs i (by omega) (by omega)]
    rw [if_neg (by rintro ⟨-, h2⟩; omega)]
    rw [Nat.cast_zero, ih (i + 1) 0 0 (fun j hj1 hj2 => hobs j (by omega) (by omega))]
    have ha : i + 1 + fuel = i + (fuel + 1) := by omega
    rw [ha]

/-- Soundness of the `stable` verdict: the loop only ever stops with
`stable` after finding `checks` consecutive samples of one positive
size, with the decisive sample inside the budget window. -/
lemma stabilityLoop_stable_sound (obs : Nat → Sample) (checks : Nat) :
    ∀ fuel i last cnt m, cnt ≤ i →
      (cnt = 0 ∨ ∃ s : Nat, 0 < s ∧ (s : Int) = last ∧
        ∀ j, i ≤ j + cnt → j < i → obs j = .size s) →
      stabilityLoop obs checks i fuel last cnt = (.stable, m) →
      checks ≤ m + 1 ∧ m < i + fuel ∧
        ∃ s : Nat, 0 < s ∧ ∀ j, m + 1 ≤ j + checks → j ≤ m → obs j = .size s := by
  intro fuel
  induction fuel with
  | zero => intro i last cnt m _ _ h; simp [stabilityLoop] at h
  | succ fuel ih =>
    intro i last cnt m hcnt hH hrun
    rcases hobs : obs i with _ | n | e
    · simp only [stabilityLoop, hobs] at hrun; simp at hrun
    · simp only [stabilityLoop, hobs] at hrun
      by_cases hcond : (n : Int) = last ∧ 0 < n
      · rw [if_pos hcond] at hrun
        by_cases hret : checks ≤ cnt + 1
        · rw [if_pos hret] at hrun
          have hm : m = i := by
            have := hrun
            simp [Prod.ext_iff] at this
            omega
          subst hm
          refine ⟨by omega, by omega, n, hcond.2, ?_⟩
          intro j hj1 hj2
          rcases Nat.lt_or_ge j m with hji | hji
          · rcases hH with h0 | ⟨s, hs, hsl, hwin⟩
            · omega
            · have hjw : obs j = .size s := hwin j (by omega) hji
              have hsn : s = n := by
                have : (s : Int) = (n : Int) := by rw [hsl, hcond.1]
                exact_mod_cast this
              rw [hjw, hsn]
          · have hjm : j = m := by omega
            rw [hjm, hobs]
        · rw [if_neg hret] at hrun
          refine (ih (i + 1) last (cnt + 1) m (by omega) ?_ hrun).imp id
              (fun h => ⟨by omega, h.2⟩)
          refine Or.inr ⟨n, hcond.2, hcond.1, ?_⟩
          intro j hj1 hj2
          rcases Nat.lt_or_ge j i with hji | hji
          · rcases hH with h0 | ⟨s, hs, hsl, hwin⟩
            · omega
            · have hjw : obs j = .size s := hwin j (by omega) hji
              have hsn : s = n := by
                have : (s : Int) = (n : Int) := by rw [hsl, hcond.1]
                exact_mod_cast this
              rw [hjw, hsn]
          · have hji2 : j = i := by omega
            rw [hji2, hobs]
      · rw [if_neg hcond] at hrun
        exact (ih (i + 1) (n : Int) 0 m (by omega) (Or.inl rfl) hrun).imp id
          (fun h => ⟨by omega, h.2⟩)
    · simp only [stabilityLoop, hobs] at hrun; simp at hrun

/-- C5: for a file whose size is held constant and non-zero across all
samples, the stability check returns true with the decisive sample at
index `checks`, i.e. after `checks` completed `sleep(interval)` calls —
within `checks × interval` time; for a file whose size changes on every
sample, the check returns false only once all `2 × checks` samples of
the budget are spent. -/
theorem C5_stability_monotonicity :
    (∀ (obs : Nat → Sample) (checks s : Nat), 1 ≤ checks → 0 < s →
      (∀ i, obs i = Sample.size s) →
      stabilityLoop obs checks 0 (checks * 2) (-1) 0 = (.stable, checks) ∧
        wait_until_stable obs checks = true) ∧
    (∀ (obs : Nat → Sample) (checks : Nat) (f : Nat → Nat),
      (∀ i, obs i = Sample.size (f i)) → (∀ i, f (i + 1) ≠ f i) →
      stabilityLoop obs checks 0 (checks * 2) (-1) 0 = (.exhausted, checks * 2) ∧
        wait_until_stable obs checks = false) := by
  constructor
  · intro obs checks s hc hs hobs
    have hfuel : checks * 2 = (checks * 2 - 1) + 1 := by omega
    have hloop : stabilityLoop obs checks 0 (checks * 2) (-1) 0 = (.stable, checks) := by
      rw [hfuel]
      simp only [stabilityLoop, hobs 0]
      rw [if_neg (by rintro ⟨h1, -⟩; omega)]
      rw [stabilityLoop_const obs checks s hs hobs (checks * 2 - 1) 1 0
        (by omega) (by omega)]
      have ha : 1 + (checks - 0 - 1) = checks := by omega
      rw [ha]
    exact ⟨hloop, by simp [wait_until_stable, hloop]⟩
  · intro obs checks f hobs hne
    rcases Nat.eq_zero_or_pos checks with h0 | hpos
    · subst h0
      refine ⟨by simp [stabilityLoop], ?_⟩
      simp [wait_until_stable, stabilityLoop]
    · have hfuel : checks * 2 = (checks * 2 - 1) + 1 := by omega
      have hloop : stabilityLoop obs checks 0 (checks * 2) (-1) 0 =
          (.exhausted, checks * 2) := by
        rw [hfuel]
        simp only [stabilityLoop, hobs 0]
        rw [if_neg (by rintro ⟨h1, -⟩; omega)]
        have h2 := stabilityLoop_changing obs f checks hobs hne (checks * 2 - 1) 0
        simp only [Nat.zero_add] at h2
        rw [h2]
        congr 1
        omega
      exact ⟨hloop, by simp [wait_until_stable, hloop]⟩

theorem C5_witness :
    stabilityLoop (fun _ => Sample.size 5) 3 0 (3 * 2) (-1) 0 =
        (.stable, 3) ∧
      stabilityLoop (fun i => Sample.size (i + 1)) 3 0 (3 * 2) (-1) 0 =
        (.exhausted, 3 * 2) :=
  ⟨(C5_stability_monotonicity.1 (fun _ => Sample.size 5) 3 5 (by omega) (by omega)
      (fun _ => rfl)).1,
   (C5_stability_monotonicity.2 (fun i => Sample.size (i + 1)) 3 (fun i => i + 1)
      (fun _ => rfl) (fun i => by show i + 1 + 1 ≠ i + 1; omega)).1⟩

/-- C6: a file of size 0 is never reported stable, even when every
sample of the budget observes the same zero size. -/
theorem C6_zero_never_stable : ∀ (obs : Nat → Sample) (checks : Nat),
    (∀ i, i < checks * 2 → obs i = Sample.size 0) →
    wait_until_stable obs checks = false := by
  intro obs checks hobs
  have hloop := stabilityLoop_zero obs checks (checks * 2) 0 (-1) 0
    (fun j _ hj2 => hobs j (by omega))
  simp [wait_until_stable, hloop]

theorem C6_witness : wait_until_stable (fun _ => Sample.size 0) 3 = false :=
  C6_zero_never_stable (fun _ => Sample.size 0) 3 (fun _ _ => rfl)

/-- C7: the stability check fails closed.  A run that stops because the
path vanished, because the budget ran out, or because sampling raised
an error returns `false` (the exception is caught, never escaping to
the caller), and the only runs that return `true` are those that found
`checks` consecutive samples of one positive size within the budget. -/
theorem C7_fail_closed : ∀ (obs : Nat → Sample) (checks : Nat),
    ((stabilityLoop obs checks 0 (checks * 2) (-1) 0).1 = .vanished →
      wait_until_stable obs checks = false) ∧
    ((stabilityLoop obs checks 0 (checks * 2) (-1) 0).1 = .exhausted →
      wait_until_stable obs checks = false) ∧
    (∀ e, (stabilityLoop obs checks 0 (checks * 2) (-1) 0).1 = .errored e →
      wait_until_stable obs checks = false) ∧
    (wait_until_stable obs checks = true →
      ∃ m s, checks ≤ m + 1 ∧ m < checks * 2 ∧ 0 < s ∧
        ∀ j, m + 1 ≤ j + checks → j ≤ m → obs j = Sample.size s) := by
  intro obs checks
  refine ⟨fun h => by simp [wait_until_stable, h],
    fun h => by simp [wait_until_stable, h],
    fun e h => by simp [wait_until_stable, h], fun h => ?_⟩
  rcases hq : stabilityLoop obs checks 0 (checks * 2) (-1) 0 with ⟨r, m⟩
  have hr : r = .stable := by
    cases r with
    | stable => rfl
    | vanished => simp [wait_until_stable, hq] at h
    | exhausted => simp [wait_until_stable, hq] at h
    | errored e => simp [wait_until_stable, hq] at h
  subst hr
  obtain ⟨h1, h2, s, hs0, hwin⟩ := stabilityLoop_stable_sound obs checks
    (checks * 2) 0 (-1) 0 m (Nat.le_refl 0) (Or.inl rfl) hq
  exact ⟨m, s, h1, by omega, hs0, hwin⟩

theorem C7_witness : wait_until_stable (fun _ => Sample.missing) 3 = false :=
  (C7_fail_closed (fun _ => Sample.missing) 3).1 (by decide)

/-! ### Helper lemmas about the deletion retry loop -/

lemma sleepsFrom_shape : ∀ (fuel a : Nat) (e : Event),
    e ∈ sleepsFrom a fuel → ∃ n, e = Event.sleepHalf n := by
  intro fuel
  induction fuel with
  | zero => intro a e h; simp [sleepsFrom] at h
  | succ fuel ih =>
    intro a e h
    rcases List.mem_cons.mp h with h1 | h1
    · exact ⟨a + 1, h1⟩
    · exact ih (a + 1) e h1

lemma sleepsFrom_mem_of_lt : ∀ (fuel a k : Nat), k < fuel →
    Event.sleepHalf (a + k + 1) ∈ sleepsFrom a fuel := by
  intro fuel
  induction fuel with
  | zero => intro a k hk; omega
  | succ fuel ih =>
    intro a k hk
    cases k with
    | zero => exact List.mem_cons_self _ _
    | succ k =>
      have := ih (a + 1) k (by omega)
      rw [show a + (k + 1) + 1 = a + 1 + k + 1 by omega]
      exact List.mem_cons_of_mem _ this

/-- When every attempt raises `PermissionError`, the retry loop spends
its whole budget sleeping and falls through to the `for`–`else`. -/
lemma deleteRetry_allPerm (r : Nat → RemoveResult) (p : String) :
    ∀ (fuel a : Nat), (∀ k, k < fuel → r (a + k) = .permissionError) →
      deleteRetry r p a fuel = (sleepsFrom a fuel, .exhausted) := by
  intro fuel
  induction fuel with
  | zero => intro a _; rfl
  | succ fuel ih =>
    intro a h
    have h0 : r a = .permissionError := by simpa using h 0 (by omega)
    simp only [deleteRetry, h0]
    rw [ih (a + 1) (fun k hk => by
      have h2 := h (k + 1) (by omega)
      rwa [show a + (k + 1) = a + 1 + k by omega] at h2)]
    simp [sleepsFrom]

/-- When attempt `k` is the first to succeed (all earlier ones raising
`PermissionError`), the loop deletes the file and breaks. -/
lemma deleteRetry_firstOk (r : Nat → RemoveResult) (p : String) :
    ∀ (k fuel a : Nat), k < fuel → r (a + k) = .ok →
      (∀ j, j < k → r (a + j) = .permissionError) →
      deleteRetry r p a fuel = (sleepsFrom a k ++ [Event.removed p], .removedOk) := by
  intro k
  induction k with
  | zero =>
    intro fuel a hk hok _
    cases fuel with
    | zero => omega
    | succ fuel =>
      have h0 : r a = .ok := by simpa using hok
      simp [deleteRetry, h0, sleepsFrom]
  | succ k ih =>
    intro fuel a hk hok hpe
    cases fuel with
    | zero => omega
    | succ fuel =>
      have h0 : r a = .permissionError := by simpa using hpe 0 (by omega)
      simp only [deleteRetry, h0]
      rw [ih fuel (a + 1) (by omega)
        (by rwa [show a + 1 + k = a + (k + 1) by omega])
        (fun j hj => by
          have h2 := hpe (j + 1) (by omega)
          rwa [show a + (j + 1) = a + 1 + j by omega] at h2)]
      simp [sleepsFrom]

/-- When attempt `k` raises something other than `PermissionError`
(all earlier ones raising `PermissionError`), the loop aborts at once
and the exception propagates: only `PermissionError` is retried. -/
lemma deleteRetry_raisedAt (r : Nat → RemoveResult) (p : String) (m : String) :
    ∀ (k fuel a : Nat), k < fuel → r (a + k) = .raised m →
      (∀ j, j < k → r (a + j) = .permissionError) →
      deleteRetry r p a fuel = (sleepsFrom a k, .raised m) := by
  intro k
  induction k with
  | zero =>
    intro fuel a hk hr _
    cases fuel with
    | zero => omega
    | succ fuel =>
      have h0 : r a = .raised m := by simpa using hr
      simp [deleteRetry, h0, sleepsFrom]
  | succ k ih =>
    intro fuel a hk hr hpe
    cases fuel with
    | zero => omega
    | succ fuel =>
      have h0 : r a = .permissionError := by simpa using hpe 0 (by omega)
      simp only [deleteRetry, h0]
      rw [ih fuel (a + 1) (by omega)
        (by rwa [show a + 1 + k = a + (k + 1) by omega])
        (fun j hj => by
          have h2 := hpe (j + 1) (by omega)
          rwa [show a + (j + 1) = a + 1 + j by omega] at h2)]
      simp [sleepsFrom]

/-- The shape of the trace of a stable, successfully uploaded file,
as a function of how the deletion retry loop ended. -/
lemma process_file_ok_trace (env : Env) (p out : String)
    (h1 : wait_until_stable env.obs 3 = true) (h2 : env.upload = .ok out) :
    process_file env p =
      Event.logSuccess p out ::
        (match (deleteRetry env.remove p 0 5).2 with
         | .removedOk => (deleteRetry env.remove p 0 5).1
         | .exhausted => (deleteRetry env.remove p 0 5).1 ++
             [Event.logError p "upload_ok_but_delete_failed" "warn=delete_failed"]
         | .raised e => (deleteRetry env.remove p 0 5).1 ++
             Event.logError p e "" ::
               (if env.existsAfterFail then safe_move_to_failed env p e else [])) := by
  simp only [process_file, h1, h2]
  rw [if_neg (by simp)]
  cases hdo : (deleteRetry env.remove p 0 5).2 <;> rfl

/-- C3: for every sink call that returns success, the source file is
deleted, or, if every deletion attempt keeps failing with
`PermissionError`, after 5 attempts with linearly increasing backoff
(`sleepHalf (k+1)` standing for `time.sleep(0.5 × (k+1))`) the
cleanup-failure warning is logged and the file remains; either way the
upload is recorded as a success, the only error-log line possible is
the cleanup warning, and the file is never moved to quarantine. -/
theorem C3_success_cleanup : ∀ (env : Env) (p out : String),
    wait_until_stable env.obs 3 = true →
    env.upload = .ok out →
    (∀ k, k < 5 → env.remove k = .ok ∨ env.remove k = .permissionError) →
    (Event.removed p ∈ process_file env p ∨
      (Event.logError p "upload_ok_but_delete_failed" "warn=delete_failed"
          ∈ process_file env p ∧
        Event.removed p ∉ process_file env p ∧
        ∀ k, k < 5 → Event.sleepHalf (k + 1) ∈ process_file env p)) ∧
    Event.logSuccess p out ∈ process_file env p ∧
    (∀ e x, Event.logError p e x ∈ process_file env p →
      e = "upload_ok_but_delete_failed" ∧ x = "warn=delete_failed") ∧
    (∀ src dst, Event.moved src dst ∉ process_file env p) := by
  intro env p out h1 h2 h3
  have htr0 := process_file_ok_trace env p out h1 h2
  by_cases hall : ∀ k, k < 5 → env.remove k = .permissionError
  · have hd := deleteRetry_allPerm env.remove p 5 0
      (fun k hk => by simpa using hall k hk)
    have htr : process_file env p =
        Event.logSuccess p out :: (sleepsFrom 0 5 ++
          [Event.logError p "upload_ok_but_delete_failed" "warn=delete_failed"]) := by
      rw [htr0, hd]
    rw [htr]
    refine ⟨Or.inr ⟨by simp, by simp [sleepsFrom], ?_⟩, by simp, ?_, ?_⟩
    · intro k hk
      have hmem := sleepsFrom_mem_of_lt 5 0 k hk
      rw [show 0 + k + 1 = k + 1 by omega] at hmem
      exact List.mem_cons_of_mem _ (List.mem_append_left _ hmem)
    · intro e x hmem
      simp [sleepsFrom] at hmem
      exact hmem
    · intro src dst
      simp [sleepsFrom]
  · have hex : ∃ k, env.remove k ≠ .permissionError := by
      push_neg at hall
      obtain ⟨k, _, hk2⟩ := hall
      exact ⟨k, hk2⟩
    set K := Nat.find hex with hK
    have hKne : env.remove K ≠ .permissionError := Nat.find_spec hex
    have hKmin : ∀ j, j < K → env.remove j = .permissionError := by
      intro j hj
      have := Nat.find_min hex hj
      simpa using this
    have hK5 : K < 5 := by
      by_contra hge
      push_neg at hall
      obtain ⟨k, hk1, hk2⟩ := hall
      exact hk2 (hKmin k (by omega))
    have hKok : env.remove K = .ok := by
      rcases h3 K hK5 with h | h
      · exact h
      · exact absurd h hKne
    have hd := deleteRetry_firstOk env.remove p K 5 0 (by omega)
      (by simpa using hKok) (fun j hj => by simpa using hKmin j hj)
    have htr : process_file env p =
        Event.logSuccess p out :: (sleepsFrom 0 K ++ [Event.removed p]) := by
      rw [htr0, hd]
    rw [htr]
    refine ⟨Or.inl (by simp), by simp, ?_, ?_⟩
    · intro e x hmem
      rcases List.mem_cons.mp hmem with hc | hmem2
      · exact absurd hc (by simp)
      rcases List.mem_append.mp hmem2 with hs | hr
      · obtain ⟨n, hn⟩ := sleepsFrom_shape K 0 _ hs
        exact absurd hn (by simp)
      · simp at hr
    · intro src dst hmem
      rcases List.mem_cons.mp hmem with hc | hmem2
      · exact absurd hc (by simp)
      rcases List.mem_append.mp hmem2 with hs | hr
      · obtain ⟨n, hn⟩ := sleepsFrom_shape K 0 _ hs
        exact absurd hn (by simp)
      · simp at hr

theorem C3_witness :
    Event.logSuccess "/data/a.jpg" "tok" ∈ process_file
      { obs := fun _ => Sample.size 5, upload := .ok "tok", remove := fun _ => .ok,
        existsAfterFail := false, targetExists := false, now := 0,
        moveResult := Except.ok () } "/data/a.jpg" :=
  (C3_success_cleanup _ "/data/a.jpg" "tok" (by decide) rfl
    (fun _ _ => Or.inl rfl)).2.1

/-- Every event emitted by `safe_move_to_failed` is either the move of
`path` or an error-log line for `path` with the given reason. -/
lemma safe_move_shape (env : Env) (p reason : String) :
    ∀ e ∈ safe_move_to_failed env p reason,
      (∃ dst, e = Event.moved p dst) ∨ ∃ ex, e = Event.logError p reason ex := by
  intro e h
  unfold safe_move_to_failed at h
  cases hm : env.moveResult with
  | ok u => rw [hm] at h; simp at h
            rcases h with h | h
            · exact Or.inl ⟨_, h⟩
            · exact Or.inr ⟨_, h⟩
  | error er => rw [hm] at h; simp at h
                exact Or.inr ⟨_, h⟩

/-- C10: the deletion retry loop retries only on `PermissionError`.
If, after a successful upload and its OK log line, some `os.remove`
attempt raises any other exception, the loop aborts, control falls
into the sink-failure handler: the trace carries an ERR record (with
the removal error) in addition to the OK record, the file is not
deleted by this attempt, and a quarantine move is attempted exactly
when the file still exists. -/
theorem C10_nonpermission_delete_error : ∀ (env : Env) (p out m : String) (k : Nat),
    wait_until_stable env.obs 3 = true →
    env.upload = .ok out →
    k < 5 → env.remove k = .raised m →
    (∀ j, j < k → env.remove j = .permissionError) →
    (deleteRetry env.remove p 0 5).2 = .raised m ∧
    Event.logSuccess p out ∈ process_file env p ∧
    Event.logError p m "" ∈ process_file env p ∧
    Event.removed p ∉ process_file env p ∧
    (env.existsAfterFail = true →
      ∀ e ∈ safe_move_to_failed env p m, e ∈ process_file env p) ∧
    (env.existsAfterFail = false →
      ∀ src dst, Event.moved src dst ∉ process_file env p) := by
  intro env p out m k h1 h2 hk hr hpe
  have hd := deleteRetry_raisedAt env.remove p m k 5 0 (by omega)
    (by simpa using hr) (fun j hj => by simpa using hpe j hj)
  have htr : process_file env p =
      Event.logSuccess p out :: (sleepsFrom 0 k ++ Event.logError p m "" ::
        (if env.existsAfterFail then safe_move_to_failed env p m else [])) := by
    rw [process_file_ok_trace env p out h1 h2, hd]
  refine ⟨by rw [hd], by rw [htr]; simp, ?_, ?_, ?_, ?_⟩
  · rw [htr]
    exact List.mem_cons_of_mem _ (List.mem_append_right _ (List.mem_cons_self _ _))
  · rw [htr]
    intro hmem
    rcases List.mem_cons.mp hmem with hc | hmem2
    · exact absurd hc (by simp)
    rcases List.mem_append.mp hmem2 with hs | hr2
    · obtain ⟨n, hn⟩ := sleepsFrom_shape k 0 _ hs
      exact absurd hn (by simp)
    rcases List.mem_cons.mp hr2 with hc2 | hmem3
    · exact absurd hc2 (by simp)
    · by_cases hex : env.existsAfterFail = true
      · rw [if_pos hex] at hmem3
        rcases safe_move_shape env p m _ hmem3 with ⟨dst, hdst⟩ | ⟨ex, hex2⟩
        · exact absurd hdst (by simp)
        · exact absurd hex2 (by simp)
      · rw [if_neg hex] at hmem3
        simp at hmem3
  · intro hex e he
    rw [htr]
    exact List.mem_cons_of_mem _ (List.mem_append_right _
      (List.mem_cons_of_mem _ (by rw [if_pos hex]; exact he)))
  · intro hex src dst hmem
    rw [htr, if_neg (by rw [hex]; simp)] at hmem
    rcases List.mem_cons.mp hmem with hc | hmem2
    · exact absurd hc (by simp)
    rcases List.mem_append.mp hmem2 with hs | hr2
    · obtain ⟨n, hn⟩ := sleepsFrom_shape k 0 _ hs
      exact absurd hn (by simp)
    rcases List.mem_cons.mp hr2 with hc2 | hmem3
    · exact absurd hc2 (by simp)
    · simp at hmem3

theorem C10_witness :
    (deleteRetry (fun _ => RemoveResult.raised "gone") "/data/a.jpg" 0 5).2 =
      DeleteOutcome.raised "gone" :=
  (C10_nonpermission_delete_error
    { obs := fun _ => Sample.size 5, upload := .ok "tok",
      remove := fun _ => RemoveResult.raised "gone", existsAfterFail := false,
      targetExists := false, now := 0, moveResult := Except.ok () }
    "/data/a.jpg" "tok" "gone" 0 (by decide) rfl (by omega) rfl
    (fun j hj => absurd hj (by omega))).1

/-- C8: for every sink call that fails on a stable file, a failure
LogRecord with the error detail is emitted and the file is not
deleted; provided the file still exists, the move into the quarantine
directory is performed and logged with its destination, the target
being disambiguated with a `_<timestamp>` inserted before the
extension when the destination name already exists; if the move itself
raises, a second failure record carries the move error and no move
event occurs (the file stays in the watched tree). -/
theorem C8_failure_quarantine : ∀ (env : Env) (p msg : String),
    wait_until_stable env.obs 3 = true →
    env.upload = .raised msg →
    Event.logError p msg "" ∈ process_file env p ∧
    (∀ q, Event.removed q ∉ process_file env p) ∧
    (env.existsAfterFail = true → env.moveResult = Except.ok () →
      Event.moved p (failedTarget env p) ∈ process_file env p ∧
      Event.logError p msg ("moved_to=" ++ failedTarget env p) ∈ process_file env p) ∧
    (env.existsAfterFail = true → ∀ er, env.moveResult = Except.error er →
      Event.logError p msg ("move_failed=" ++ er) ∈ process_file env p ∧
      ∀ src dst, Event.moved src dst ∉ process_file env p) ∧
    (env.targetExists = true →
      failedTarget env p = FAILED_FOLDER ++ "/" ++ (splitext (basename p)).1 ++
        "_" ++ toString env.now ++ (splitext (basename p)).2) := by
  intro env p msg h1 h2
  have htr : process_file env p =
      Event.logError p msg "" ::
        (if env.existsAfterFail then safe_move_to_failed env p msg else []) := by
    simp only [process_file, h1, h2]
    rw [if_neg (by simp)]
  refine ⟨by rw [htr]; simp, ?_, ?_, ?_, ?_⟩
  · intro q hmem
    rw [htr] at hmem
    rcases List.mem_cons.mp hmem with hc | hmem2
    · exact absurd hc (by simp)
    · by_cases hex : env.existsAfterFail = true
      · rw [if_pos hex] at hmem2
        rcases safe_move_shape env p msg _ hmem2 with ⟨dst, hdst⟩ | ⟨ex, hex2⟩
        · exact absurd hdst (by simp)
        · exact absurd hex2 (by simp)
      · rw [if_neg hex] at hmem2
        simp at hmem2
  · intro hex hm
    have hsm : safe_move_to_failed env p msg =
        [Event.moved p (failedTarget env p),
         Event.logError p msg ("moved_to=" ++ failedTarget env p)] := by
      unfold safe_move_to_failed
      rw [hm]
    rw [htr, if_pos hex, hsm]
    exact ⟨by simp, by simp⟩
  · intro hex er hm
    have hsm : safe_move_to_failed env p msg =
        [Event.logError p msg ("move_failed=" ++ er)] := by
      unfold safe_move_to_failed
      rw [hm]
    rw [htr, if_pos hex, hsm]
    refine ⟨by simp, ?_⟩
    intro src dst hmem
    simp at hmem
  · intro ht
    unfold failedTarget
    rw [if_pos ht]

theorem C8_witness :
    Event.logError "/data/a.jpg" "boom" "" ∈ process_file
      { obs := fun _ => Sample.size 5, upload := .raised "boom",
        remove := fun _ => .ok, existsAfterFail := true, targetExists := false,
        now := 0, moveResult := Except.ok () } "/data/a.jpg" :=
  (C8_failure_quarantine _ "/data/a.jpg" "boom" (by decide) rfl).1

/-! ### Helper lemmas about the dedup gate and the worker -/

/-- `enqueue` is a silent no-op on an in-flight path (whatever
`is_media_file` says). -/
lemma enqueue_infl_noop (isf : String → Bool) (s : SysState) (p : String)
    (h : p ∈ s.in_flight) : enqueue isf s p = s := by
  unfold enqueue
  by_cases h1 : is_media_file (isf p) p = false
  · rw [if_pos h1]
  · rw [if_neg h1, if_pos h]

lemma deleteRetry_no_requeue (r : Nat → RemoveResult) (p : String) :
    ∀ (fuel a : Nat) (q : String), Event.requeue q ∉ (deleteRetry r p a fuel).1 := by
  intro fuel
  induction fuel with
  | zero => intro a q h; simp [deleteRetry] at h
  | succ fuel ih =>
    intro a q h
    rcases hra : r a with _ | _ | e
    · simp only [deleteRetry, hra] at h; simp at h
    · simp only [deleteRetry, hra] at h
      rcases List.mem_cons.mp h with hc | h2
      · exact absurd hc (by simp)
      · exact ih (a + 1) q h2
    · simp only [deleteRetry, hra] at h; simp at h

/-- The only `enqueue` call `process_file` can make is the re-queue of
its own path, from the unstable branch. -/
lemma process_file_requeue (env : Env) (p q : String) :
    Event.requeue q ∈ process_file env p → q = p := by
  intro h
  by_cases h1 : wait_until_stable env.obs 3 = true
  · exfalso
    cases h2 : env.upload with
    | raised e =>
      have htr : process_file env p = Event.logError p e "" ::
          (if env.existsAfterFail then safe_move_to_failed env p e else []) := by
        simp only [process_file, h1, h2]
        rw [if_neg (by simp)]
      rw [htr] at h
      rcases List.mem_cons.mp h with hc | h3
      · exact absurd hc (by simp)
      · by_cases hex : env.existsAfterFail = true
        · rw [if_pos hex] at h3
          rcases safe_move_shape env p e _ h3 with ⟨dst, hd⟩ | ⟨ex, hx⟩
          · exact absurd hd (by simp)
          · exact absurd hx (by simp)
        · rw [if_neg hex] at h3; simp at h3
    | ok out =>
      rw [process_file_ok_trace env p out h1 h2] at h
      rcases List.mem_cons.mp h with hc | h3
      · exact absurd hc (by simp)
      revert h3
      cases hdo : (deleteRetry env.remove p 0 5).2 with
      | removedOk => exact fun h3 => deleteRetry_no_requeue env.remove p 5 0 q h3
      | exhausted =>
        intro h3
        rcases List.mem_append.mp h3 with h4 | h4
        · exact deleteRetry_no_requeue env.remove p 5 0 q h4
        · simp at h4
      | raised e =>
        intro h3
        rcases List.mem_append.mp h3 with h4 | h4
        · exact deleteRetry_no_requeue env.remove p 5 0 q h4
        rcases List.mem_cons.mp h4 with hc2 | h5
        · exact absurd hc2 (by simp)
        · by_cases hex : env.existsAfterFail = true
          · rw [if_pos hex] at h5
            rcases safe_move_shape env p e _ h5 with ⟨dst, hd⟩ | ⟨ex, hx⟩
            · exact absurd hd (by simp)
            · exact absurd hx (by simp)
          · rw [if_neg hex] at h5; simp at h5
  · have h1f : wait_until_stable env.obs 3 = false := by
      rwa [Bool.not_eq_true] at h1
    have htr : process_file env p = [Event.sleepOne, Event.requeue p] := by
      simp [process_file, h1f]
    rw [htr] at h
    simp at h
    exact h

lemma applyRequeues_cons_requeue (isf : String → Bool) (s : SysState)
    (q : String) (evs : List Event) :
    applyRequeues isf s (Event.requeue q :: evs) =
      applyRequeues isf (enqueue isf s q) evs := rfl

lemma applyRequeues_cons_other (isf : String → Bool) (s : SysState)
    (ev : Event) (evs : List Event) (h : ∀ q, ev ≠ Event.requeue q) :
    applyRequeues isf s (ev :: evs) = applyRequeues isf s evs := by
  cases ev with
  | requeue r => exact absurd rfl (h r)
  | logSuccess a b => rfl
  | logError a b c => rfl
  | removed a => rfl
  | sleepHalf n => rfl
  | sleepOne => rfl
  | moved a b => rfl

/-- If every re-queue in `evs` targets a path already in flight, the
replayed `enqueue` calls change nothing. -/
lemma applyRequeues_noop (isf : String → Bool) (p : String) :
    ∀ (evs : List Event), (∀ q, Event.requeue q ∈ evs → q = p) →
      ∀ s : SysState, p ∈ s.in_flight → applyRequeues isf s evs = s := by
  intro evs
  induction evs with
  | nil => intro _ s _; rfl
  | cons ev evs ih =>
    intro hq s hin
    have htail : ∀ q, Event.requeue q ∈ evs → q = p :=
      fun q h2 => hq q (List.mem_cons_of_mem _ h2)
    cases hev : ev with
    | requeue r =>
      have hr : r = p := hq r (by rw [hev]; exact List.mem_cons_self _ _)
      subst hr
      rw [applyRequeues_cons_requeue, enqueue_infl_noop isf s r hin]
      exact ih htail s hin
    | logSuccess a b =>
      rw [applyRequeues_cons_other isf s _ evs (fun q => by simp)]
      exact ih htail s hin
    | logError a b c =>
      rw [applyRequeues_cons_other isf s _ evs (fun q => by simp)]
      exact ih htail s hin
    | removed a =>
      rw [applyRequeues_cons_other isf s _ evs (fun q => by simp)]
      exact ih htail s hin
    | sleepHalf n =>
      rw [applyRequeues_cons_other isf s _ evs (fun q => by simp)]
      exact ih htail s hin
    | sleepOne =>
      rw [applyRequeues_cons_other isf s _ evs (fun q => by simp)]
      exact ih htail s hin
    | moved a b =>
      rw [applyRequeues_cons_other isf s _ evs (fun q => by simp)]
      exact ih htail s hin

/-- Replaying the re-queues of a single path either leaves the
in-flight set unchanged or conses the path onto it (when it was not
in flight). -/
lemma applyRequeues_in_flight (isf : String → Bool) (p : String) :
    ∀ (evs : List Event), (∀ q, Event.requeue q ∈ evs → q = p) →
      ∀ s : SysState, (applyRequeues isf s evs).in_flight = s.in_flight ∨
        (p ∉ s.in_flight ∧ (applyRequeues isf s evs).in_flight = p :: s.in_flight) := by
  intro evs
  induction evs with
  | nil => intro _ s; exact Or.inl rfl
  | cons ev evs ih =>
    intro hq s
    have htail : ∀ q, Event.requeue q ∈ evs → q = p :=
      fun q h2 => hq q (List.mem_cons_of_mem _ h2)
    cases hev : ev with
    | requeue r =>
      have hr : r = p := hq r (by rw [hev]; exact List.mem_cons_self _ _)
      subst hr
      rw [applyRequeues_cons_requeue]
      by_cases hm : is_media_file (isf r) r = false
      · rw [show enqueue isf s r = s from by unfold enqueue; rw [if_pos hm]]
        exact ih htail s
      by_cases hin : r ∈ s.in_flight
      · rw [enqueue_infl_noop isf s r hin]
        exact ih htail s
      · have henq : enqueue isf s r =
            { in_flight := r :: s.in_flight, work_q := s.work_q ++ [r] } := by
          unfold enqueue
          rw [if_neg hm, if_neg hin]
        rw [henq]
        rcases ih htail { in_flight := r :: s.in_flight, work_q := s.work_q ++ [r] } with
          h1 | ⟨h1, -⟩
        · exact Or.inr ⟨hin, h1⟩
        · exact absurd (List.mem_cons_self _ _) h1
    | logSuccess a b =>
      rw [applyRequeues_cons_other isf s _ evs (fun q => by simp)]
      exact ih htail s
    | logError a b c =>
      rw [applyRequeues_cons_other isf s _ evs (fun q => by simp)]
      exact ih htail s
    | removed a =>
      rw [applyRequeues_cons_other isf s _ evs (fun q => by simp)]
      exact ih htail s
    | sleepHalf n =>
      rw [applyRequeues_cons_other isf s _ evs (fun q => by simp)]
      exact ih htail s
    | sleepOne =>
      rw [applyRequeues_cons_other isf s _ evs (fun q => by simp)]
      exact ih htail s
    | moved a b =>
      rw [applyRequeues_cons_other isf s _ evs (fun q => by simp)]
      exact ih htail s

lemma inv_enqueue (isf : String → Bool) (s : SysState) (p : String)
    (h : Inv s) : Inv (enqueue isf s p) := by
  unfold enqueue
  by_cases h1 : is_media_file (isf p) p = false
  · rw [if_pos h1]; exact h
  rw [if_neg h1]
  by_cases h2 : p ∈ s.in_flight
  · rw [if_pos h2]; exact h
  rw [if_neg h2]
  constructor
  · have hpw : p ∉ s.work_q := fun hw => h2 (h.2 p hw)
    simp [List.nodup_append, h.1, hpw]
  · intro q hq
    rcases List.mem_append.mp hq with hm | hm
    · exact List.mem_cons_of_mem _ (h.2 q hm)
    · simp at hm
      subst hm
      exact List.mem_cons_self _ _

lemma inv_workerStep (isf : String → Bool) (env : Env) (s : SysState)
    (h : Inv s) : Inv (workerStep isf env s).1 := by
  rcases hq : s.work_q with _ | ⟨p, rest⟩
  · simp only [workerStep, hq]; exact h
  · simp only [workerStep, hq]
    have hpin : p ∈ s.in_flight := h.2 p (by rw [hq]; exact List.mem_cons_self _ _)
    have hnd : (p :: rest).Nodup := by have := h.1; rwa [hq] at this
    have hs1 : applyRequeues isf { s with work_q := rest } (process_file env p) =
        { s with work_q := rest } :=
      applyRequeues_noop isf p _ (fun q h2 => process_file_requeue env p q h2) _ hpin
    rw [hs1]
    constructor
    · exact (List.nodup_cons.mp hnd).2
    · intro q hmem
      have hqin : q ∈ s.in_flight :=
        h.2 q (by rw [hq]; exact List.mem_cons_of_mem _ hmem)
      have hqp : q ≠ p := fun he => (List.nodup_cons.mp hnd).1 (he ▸ hmem)
      exact (List.mem_erase_of_ne hqp).mpr hqin

/-- Every reachable state satisfies the gate invariant. -/
lemma reach_inv : ∀ s : SysState, Reach s → Inv s := by
  intro s h
  induction h with
  | init => exact ⟨List.nodup_nil, fun q hq => absurd hq (List.not_mem_nil q)⟩
  | enq isf p hr ih => exact inv_enqueue isf _ p ih
  | work isf env hr ih => exact inv_workerStep isf env _ ih

/-- C4: the gate is deduplicating.  (i) `enqueue(p)` while `p` is in
flight is a silent no-op; (ii) in every reachable state the queue
holds at most one entry per path; (iii) two back-to-back `enqueue(p)`
calls starting from a state where `p` is neither in flight nor queued
yield exactly one WorkItem for `p`; (iv) the worker removes the
in-flight entry of the dequeued path unconditionally, whatever
`process_file` did. -/
theorem C4_gate_dedup :
    (∀ (isf : String → Bool) (s : SysState) (p : String),
      p ∈ s.in_flight → enqueue isf s p = s) ∧
    (∀ s : SysState, Reach s → ∀ p : String, s.work_q.count p ≤ 1) ∧
    (∀ (isf : String → Bool) (s : SysState) (p : String),
      p ∉ s.in_flight → p ∉ s.work_q → is_media_file (isf p) p = true →
      (enqueue isf (enqueue isf s p) p).work_q.count p = 1) ∧
    (∀ (isf : String → Bool) (env : Env) (s : SysState) (p : String)
      (rest : List String), s.work_q = p :: rest → s.in_flight.Nodup →
      p ∉ (workerStep isf env s).1.in_flight) := by
  refine ⟨enqueue_infl_noop, ?_, ?_, ?_⟩
  · intro s hs p
    exact List.nodup_iff_count_le_one.mp (reach_inv s hs).1 p
  · intro isf s p hni hnw hm
    have h1 : enqueue isf s p =
        { in_flight := p :: s.in_flight, work_q := s.work_q ++ [p] } := by
      unfold enqueue
      rw [if_neg (by rw [hm]; simp), if_neg hni]
    have h2 : enqueue isf (enqueue isf s p) p = enqueue isf s p :=
      enqueue_infl_noop isf _ p (by rw [h1]; exact List.mem_cons_self _ _)
    rw [h2, h1]
    simp [List.count_append, List.count_eq_zero.mpr hnw]
  · intro isf env s p rest hq hnd
    simp only [workerStep, hq]
    have hreq : ∀ q, Event.requeue q ∈ process_file env p → q = p :=
      fun q h2 => process_file_requeue env p q h2
    rcases applyRequeues_in_flight isf p (process_file env p) hreq
        { s with work_q := rest } with h1 | ⟨h1, h2⟩
    · rw [h1]
      exact hnd.not_mem_erase
    · rw [h2, List.erase_cons_head]
      exact h1

theorem C4_witness :
    enqueue (fun _ => true) ⟨["/data/a.jpg"], []⟩ "/data/a.jpg" =
        ⟨["/data/a.jpg"], []⟩ ∧
      (enqueue (fun _ => true) (enqueue (fun _ => true) ⟨[], []⟩ "/data/a.jpg")
        "/data/a.jpg").work_q.count "/data/a.jpg" = 1 :=
  ⟨C4_gate_dedup.1 _ _ _ (by decide),
   C4_gate_dedup.2.2.1 _ _ _ (by decide) (by decide) (by decide)⟩

/-- C9: the gate rejects every path that is not a regular file or whose
extension, compared case-insensitively, is outside the allow-list; on
such a path `enqueue` leaves the state untouched (no WorkItem, and the
function performs no logging or filesystem action), as in the `.txt`
end-to-end scenario. -/
theorem C9_gate_rejects :
    (∀ p : String, is_media_file false p = false) ∧
    (∀ (b : Bool) (p : String),
      (∀ ext ∈ VALID_EXT, endsWithStr (lowerStr p) ext = false) →
      is_media_file b p = false) ∧
    (∀ (isf : String → Bool) (s : SysState) (p : String),
      is_media_file (isf p) p = false → enqueue isf s p = s) ∧
    (∀ b : Bool, is_media_file b "/data/note.txt" = false) ∧
    is_media_file true "/data/IMG_0042.JPG" = true := by
  refine ⟨fun p => rfl, ?_, ?_, ?_, by decide⟩
  · intro b p h
    unfold is_media_file
    have : VALID_EXT.any (fun ext => endsWithStr (lowerStr p) ext) = false := by
      rw [List.any_eq_false]
      intro ext hext
      simp [h ext hext]
    rw [this, Bool.and_false]
  · intro isf s p h
    unfold enqueue
    rw [if_pos h]
  · intro b
    cases b with
    | false => rfl
    | true => decide

theorem C9_witness :
    enqueue (fun _ => true) ⟨[], []⟩ "/data/note.txt" = ⟨[], []⟩ :=
  C9_gate_rejects.2.2.1 (fun _ => true) ⟨[], []⟩ "/data/note.txt" (by decide)

/-- C1 (evaluation at the failing input): dequeue a queued path
whose size changes at every stability sample.  `process_file` does
call `enqueue(path)` (the `requeue` event is in the trace), but the
path is still in the in-flight set at that moment — the worker's
`finally` only discards it afterwards — so the call is a silent no-op:
the resulting state has an empty queue (and empty in-flight set); the
path is not queued again. -/
theorem C1_unstable_requeue_noop :
    workerStep (fun _ => true)
      { obs := fun i => Sample.size (i + 1), upload := .ok "tok",
        remove := fun _ => .ok, existsAfterFail := false, targetExists := false,
        now := 0, moveResult := Except.ok () }
      ⟨["/data/a.jpg"], ["/data/a.jpg"]⟩ =
    (⟨[], []⟩, [Event.sleepOne, Event.requeue "/data/a.jpg"]) := by decide

/-- C2 (refutation): the quarantine directory lies inside the watched
tree, and the full scan does call `enqueue` for a media file under it —
the file is queued. -/
theorem C2_counterexample :
    isUnder FAILED_FOLDER "/data/_failed/a.jpg" = true ∧
    (initial_scan (fun _ => true) ["/data/_failed/a.jpg"] ⟨[], []⟩).work_q =
      ["/data/_failed/a.jpg"] := by decide

lemma isPrefixOf_append_right (m l1 l2 : List Char)
    (h : l1.isPrefixOf l2 = true) : l1.isPrefixOf (l2 ++ m) = true := by
  rw [List.isPrefixOf_iff_prefix] at h ⊢
  exact h.trans (List.prefix_append l2 m)

lemma under_watched_of_under_failed (q : String) :
    isUnder WATCHED_FOLDER (FAILED_FOLDER ++ "/" ++ q) = true := by
  unfold isUnder
  have h1 : (FAILED_FOLDER ++ "/" ++ q).toList =
      (FAILED_FOLDER ++ "/").data ++ q.data := by
    show (FAILED_FOLDER ++ "/" ++ q).data = _
    rw [String.data_append]
  rw [h1]
  exact isPrefixOf_append_right q.data _ _ (by decide)

lemma enqueue_workq_mono (isf : String → Bool) (st : SysState) (r p : String)
    (h : p ∈ st.work_q) : p ∈ (enqueue isf st r).work_q := by
  unfold enqueue
  by_cases h1 : is_media_file (isf r) r = false
  · rw [if_pos h1]; exact h
  rw [if_neg h1]
  by_cases h2 : r ∈ st.in_flight
  · rw [if_pos h2]; exact h
  · rw [if_neg h2]; exact List.mem_append_left _ h

lemma foldl_enqueue_mono (isf : String → Bool) :
    ∀ (l : List String) (st : SysState) (p : String), p ∈ st.work_q →
      p ∈ (l.foldl (fun st r => enqueue isf st r) st).work_q := by
  intro l
  induction l with
  | nil => intro st p h; exact h
  | cons r l ih =>
    intro st p h
    rw [List.foldl_cons]
    exact ih _ p (enqueue_workq_mono isf st r p h)

lemma enqueue_pres_subset (isf : String → Bool) (st : SysState) (r p : String)
    (h : p ∈ st.in_flight → p ∈ st.work_q) :
    p ∈ (enqueue isf st r).in_flight → p ∈ (enqueue isf st r).work_q := by
  unfold enqueue
  by_cases h1 : is_media_file (isf r) r = false
  · rw [if_pos h1]; exact h
  rw [if_neg h1]
  by_cases h2 : r ∈ st.in_flight
  · rw [if_pos h2]; exact h
  · rw [if_neg h2]
    intro hm
    rcases List.mem_cons.mp hm with he | hm2
    · subst he
      exact List.mem_append_right _ (List.mem_cons_self _ _)
    · exact List.mem_append_left _ (h hm2)

/-- A listed media path ends up on the queue after the scan's
`enqueue` fold (provided in-flight membership implies queue
membership, as in the empty initial state). -/
lemma foldl_enqueue_hits (isf : String → Bool) :
    ∀ (l : List String) (st : SysState) (p : String),
      (p ∈ st.in_flight → p ∈ st.work_q) → p ∈ l →
      is_media_file (isf p) p = true →
      p ∈ (l.foldl (fun st r => enqueue isf st r) st).work_q := by
  intro l
  induction l with
  | nil => intro st p _ h _; exact absurd h (List.not_mem_nil p)
  | cons r l ih =>
    intro st p hsub hmem hmedia
    rw [List.foldl_cons]
    rcases List.mem_cons.mp hmem with he | hm
    · subst he
      by_cases h2 : p ∈ st.in_flight
      · rw [enqueue_infl_noop isf st p h2]
        exact foldl_enqueue_mono isf l st p (hsub h2)
      · have h3 : enqueue isf st p =
            { in_flight := p :: st.in_flight, work_q := st.work_q ++ [p] } := by
          unfold enqueue
          rw [if_neg (by rw [hmedia]; simp), if_neg h2]
        rw [h3]
        exact foldl_enqueue_mono isf l _ p
          (List.mem_append_right _ (List.mem_cons_self _ _))
    · exact ih (enqueue isf st r) p (enqueue_pres_subset isf st r p hsub) hm hmedia

/-- C2 (amended): the quarantine directory `FAILED_FOLDER` is a
subdirectory of the watched tree and is not excluded from the periodic
full scan, so the scan calls `enqueue` for files under it; any present
file under the quarantine directory that passes the media check is
(re-)accepted as a candidate by `initial_scan`. -/
theorem C2_amended_scan_requeues : ∀ (fs : List String) (isf : String → Bool)
    (q : String),
    (FAILED_FOLDER ++ "/" ++ q) ∈ fs →
    is_media_file (isf (FAILED_FOLDER ++ "/" ++ q)) (FAILED_FOLDER ++ "/" ++ q)
      = true →
    (FAILED_FOLDER ++ "/" ++ q) ∈ (initial_scan isf fs ⟨[], []⟩).work_q := by
  intro fs isf q hmem hmedia
  unfold initial_scan
  apply foldl_enqueue_hits
  · intro h
    exact absurd h (List.not_mem_nil _)
  · unfold os_walk_files
    exact List.mem_filter.mpr ⟨hmem, under_watched_of_under_failed q⟩
  · exact hmedia

theorem C2_amended_witness :
    (FAILED_FOLDER ++ "/" ++ "b.jpg") ∈ (initial_scan (fun _ => true)
      ["/data/x.png", FAILED_FOLDER ++ "/" ++ "b.jpg"] ⟨[], []⟩).work_q :=
  C2_amended_scan_requeues _ _ "b.jpg" (by simp) (by decide)

end GPhoto
